import Mathlib

/-!
# Verification of the snapback retention engine (package `config`)

Shallow embedding of the retention-policy engine of the snapback tool:
interval and sampling parsing (`interval.go`), policy ordering and
application (`policy.go`), policy resolution, load-time validation and
expiry computation (`config.go`).

Modelling conventions:

* Timestamps (`time.Time`) and durations (`time.Duration`) are integer
  nanosecond counts, modelled as unbounded `Int` (64-bit overflow is not
  modelled).  `durationInterval` divides by `10^9` exactly as the Go code
  divides a `Duration` by `time.Second`.
* Go integer division truncates toward zero, which is `Int.tdiv`.
* Functions that can panic in Go (`Policy.apply` divides by a computed
  quantity that can be zero, and indexes `batch[len-1]`) return `Option`:
  `none` models the runtime panic.
* The float64 arithmetic of `parseInterval` is modelled exactly: every
  finite IEEE-754 binary64 value is a rational, `strconv.ParseFloat` is
  correctly rounded (round to nearest, ties to even) with its `ErrRange`
  failure on overflow to infinity, and the unit multiplication performs
  one binary64 rounding of the exact product.  The conversion
  `Interval(f)` truncates toward zero; for an out-of-range or infinite
  operand the Go specification makes it implementation-dependent, and
  the model fixes the amd64 (cvttsd2si) result, `math.MinInt64`.
* Iteration over the `rules` map in `FindExpired` has a randomized order
  in Go; the model iterates rules in policy-list order.  All claims below
  are insensitive to that order (they are membership statements, or use
  configurations with a single applicable rule).
* YAML decoding, environment-variable expansion and filesystem glob
  expansion in `Parse` are I/O periphery and are not modelled; the pure
  validation loop of `Parse` is modelled by `validateConfig`.
-/

namespace Snapback

/-- An `Interval` is a time interval in seconds (Go `type Interval int64`). -/
abbrev Interval := Int

/-- Nanoseconds per second (`time.Second`). -/
def nsPerSec : Int := 1000000000

/-- `durationInterval` from `interval.go`: `Interval(d / time.Second)`,
with `d` a duration in nanoseconds.  Go division truncates toward zero. -/
def durationInterval (d : Int) : Interval := Int.tdiv d nsPerSec

/-- `forever = 1<<63 - 1` from `policy.go`. -/
def forever : Interval := 9223372036854775807

/-- A tarsnap archive as the engine observes it (`tarsnap.Archive`):
`Name`, `Base`, `Tag` with `Name = Base + Tag`, and `Created` (here:
nanoseconds since the Unix epoch, since `timeZero` in `config.go` is the
epoch). -/
structure Archive where
  name : String
  base : String
  tag : String
  created : Int
  deriving DecidableEq, Repr

/-- The batches handed to `Policy.apply` are ordered by creation time
ascending (oldest first); this is the sortedness test for that order. -/
def ascendingB : List Archive → Bool
  | [] => true
  | [_] => true
  | a :: b :: rest => decide (a.created ≤ b.created) && ascendingB (b :: rest)

/-- `Sampling` from `interval.go`: `N` samples per `Period`. -/
structure Sampling where
  n : Int
  period : Interval
  deriving DecidableEq, Repr

/-- `Policy` from `policy.go`: window `[Min, Max]`, unconditional-retain
count `Latest`, optional `Sample`. -/
structure Policy where
  min : Interval
  max : Interval
  latest : Int
  sample : Option Sampling
  deriving DecidableEq, Repr

/-- `Backup` from `config.go` (the fields the retention engine uses). -/
structure Backup where
  name : String
  expiration : List Policy
  policy : String
  deriving DecidableEq, Repr

/-- `Config` from `config.go` (the fields the retention engine uses).
The named-policy map is an association list; `lookupNamed` returns `[]`
for a missing key, as a Go map lookup yields `nil`. -/
structure Config where
  backup : List Backup
  expiration : List Policy
  policy : List (String × List Policy)
  deriving DecidableEq, Repr

/-! ## Interval and sampling parsing (`interval.go`) -/

/-- `\d` of Go regexp. -/
def isDigitChar (c : Char) : Bool := decide ('0' ≤ c) && decide (c ≤ '9')

/-- `\w` of Go regexp: `[0-9A-Za-z_]`. -/
def isWordChar (c : Char) : Bool :=
  isDigitChar c || (decide ('a' ≤ c) && decide (c ≤ 'z')) ||
    (decide ('A' ≤ c) && decide (c ≤ 'Z')) || c == '_'

/-- Numeric value of a decimal digit. -/
def digitVal (c : Char) : Nat := c.toNat - '0'.toNat

/-- Value of a digit string, most significant first. -/
def digitsVal (cs : List Char) : Nat :=
  cs.foldl (fun acc c => acc * 10 + digitVal c) 0

/-- The capture of the group `(\d+|\d*\.\d+)?` at the front of the input,
together with the rest of the input, as Go's leftmost-first matching of
the pattern `^(\d+|\d*\.\d+)? ?(\w+)$` in `parseInterval` produces it:
the longest numeric prefix (a decimal point must be followed by at least
one digit to be part of the number). -/
def splitNum (cs : List Char) : List Char × List Char :=
  match cs.dropWhile isDigitChar with
  | c :: r2 =>
      if c = '.' then
        if (r2.takeWhile isDigitChar).isEmpty then (cs.takeWhile isDigitChar, c :: r2)
        else (cs.takeWhile isDigitChar ++ c :: r2.takeWhile isDigitChar,
          r2.dropWhile isDigitChar)
      else (cs.takeWhile isDigitChar, c :: r2)
  | [] => (cs.takeWhile isDigitChar, [])

/-- The language of the number group `(\d+|\d*\.\d+)`: a nonempty digit
string, or an optional digit string, a decimal point and a nonempty digit
string. -/
def numericTok (cs : List Char) : Bool :=
  (!cs.isEmpty && cs.all isDigitChar) ||
    (match cs.dropWhile isDigitChar with
     | c :: fp => c == '.' && (!fp.isEmpty && fp.all isDigitChar)
     | [] => false)

/-- Exact value of the matched number as numerator and power-of-ten
scale; the empty match means `1` (`m[1] = "1"` in the Go code). -/
def numValue (num : List Char) : Nat × Nat :=
  if num.isEmpty then (1, 1)
  else
    let ip := num.takeWhile isDigitChar
    match num.dropWhile isDigitChar with
    | c :: fp =>
        if c = '.' then (digitsVal ip * 10 ^ fp.length + digitsVal fp, 10 ^ fp.length)
        else (digitsVal ip, 1)
    | [] => (digitsVal ip, 1)

/-- The unit tokens accepted by the `switch` in `parseInterval`, with
their values in seconds: s/sec/secs, h/hr/hrs, d/day/days,
w/wk/week/weeks, m/mo/mon/month/months, y/yr/year/years.  Month is
30.4375 days = 2629800 s and year is 365.25 days = 31557600 s, both
exact. -/
def unitTable : List (List Char × Nat) :=
  [(['s'], 1), (['s', 'e', 'c'], 1), (['s', 'e', 'c', 's'], 1),
   (['h'], 3600), (['h', 'r'], 3600), (['h', 'r', 's'], 3600),
   (['d'], 86400), (['d', 'a', 'y'], 86400), (['d', 'a', 'y', 's'], 86400),
   (['w'], 604800), (['w', 'k'], 604800), (['w', 'e', 'e', 'k'], 604800),
   (['w', 'e', 'e', 'k', 's'], 604800),
   (['m'], 2629800), (['m', 'o'], 2629800), (['m', 'o', 'n'], 2629800),
   (['m', 'o', 'n', 't', 'h'], 2629800), (['m', 'o', 'n', 't', 'h', 's'], 2629800),
   (['y'], 31557600), (['y', 'r'], 31557600), (['y', 'e', 'a', 'r'], 31557600),
   (['y', 'e', 'a', 'r', 's'], 31557600)]

/-- Seconds per unit token, for exactly the unit strings accepted by the
`switch` in `parseInterval` (see `unitTable`). -/
def unitSeconds (u : List Char) : Option Nat :=
  (unitTable.find? fun e => e.fst == u).map Prod.snd

/-!
### An exact model of the float64 arithmetic in `parseInterval`

`parseInterval` computes `strconv.ParseFloat(m[1], 64)` and multiplies
the result by a float64 unit constant before converting with
`Interval(f)`.  Every finite IEEE-754 binary64 value is a rational
number, so both roundings can be modelled exactly; since all quantities
here are nonnegative, rationals are represented as numerator and
denominator pairs of naturals (denominator positive).  `ParseFloat`
returns the binary64 value nearest to the decimal literal (the regex
admits only plain decimal literals, for which `ErrRange` on overflow to
+Inf is the sole error case; gradual underflow returns a subnormal or
zero without error), and the multiplication performs one binary64
rounding of the exact product.
-/

/-- Does `2^k ≤ a / b` hold (`b > 0`)? -/
def log2fuel : Nat → Nat → Nat
  | 0, _ => 0
  | fuel + 1, n => if n < 2 then 0 else log2fuel fuel (n / 2) + 1

/-- Floor of the base-2 logarithm of `n` (`0` for `n = 0`): a
fuel-indexed structural recursion (fuel `n` always suffices, since the
argument halves at every step), so that it reduces by kernel
computation. -/
def natLog2 (n : Nat) : Nat := log2fuel n n

def lePow2 (k : Int) (a b : Nat) : Bool :=
  if 0 ≤ k then decide (2 ^ k.toNat * b ≤ a) else decide (b ≤ a * 2 ^ (-k).toNat)

/-- Floor of the base-2 logarithm of the positive rational `a / b`: the
bit lengths of numerator and denominator give a candidate off by at
most one, fixed up by exact comparison. -/
def floorLog2 (a b : Nat) : Int :=
  let c : Int := (natLog2 a : Int) - (natLog2 b : Int)
  if lePow2 (c + 1) a b then c + 1 else if lePow2 c a b then c else c - 1

/-- The fraction `(a / b) / 2^e` as a numerator-denominator pair. -/
def scaleDown (a b : Nat) (e : Int) : Nat × Nat :=
  if 0 ≤ e then (a, b * 2 ^ e.toNat) else (a * 2 ^ (-e).toNat, b)

/-- Round the nonnegative rational `a / b` to the nearest integer, ties
to even. -/
def rne (a b : Nat) : Nat :=
  let fl := a / b
  let r := a % b
  if 2 * r < b then fl
  else if b < 2 * r then fl + 1
  else if fl % 2 = 0 then fl else fl + 1

/-- `2 ^ 1024`, the smallest magnitude that overflows binary64, written
out as a literal so that the overflow test reduces by kernel
computation (`pow2_1024_eq` checks the value). -/
def pow2_1024 : Nat := 179769313486231590772930519078902473361797697894230657273430081157732675805500963132708477322407536021120113879871393357658789768814416622492847430639474124377767893424865485276302219601246094119453082952085005768838150682342462881473913110540827237163350510684586298239947245938479716304835356329624224137216

/-- Round the nonnegative rational `a / b` (`b > 0`) to the nearest
IEEE-754 binary64 value (round to nearest, ties to even): 53
significant bits down to the subnormal range at scale `2^-1074`.  The
result is a numerator-denominator pair whose denominator is a power of
two.  `none` is an overflow to +Inf (`strconv.ParseFloat` then reports
`ErrRange`); underflow to zero is exact and, as in Go's strconv, not an
error. -/
def fround (a b : Nat) : Option (Nat × Nat) :=
  if a = 0 then some (0, 1)
  else
    let e := max (floorLog2 a b - 52) (-1074)
    let x := scaleDown a b e
    let m := rne x.1 x.2
    let v := if 0 ≤ e then (m * 2 ^ e.toNat, 1) else (m, 2 ^ (-e).toNat)
    if pow2_1024 * v.2 ≤ v.1 then none else some v

/-- `math.MinInt64`, the result of Go's float64-to-int64 conversion on
amd64 (cvttsd2si) for an out-of-range or infinite operand.  The Go
specification leaves that conversion implementation-dependent; the
model fixes the amd64 behavior. -/
def minInt64 : Int := -9223372036854775808

/-- The conversion `Interval(f)` of a nonnegative finite float64 value
`a / b`: truncation toward zero when the result is representable in
int64, the implementation-dependent (here: amd64) sentinel otherwise. -/
def floatToInt64 (a b : Nat) : Int :=
  let t := a / b
  if 9223372036854775807 < t then minInt64 else (t : Int)

/-- The number-to-seconds computation of `parseInterval` for a matched
number with exact value `nv / sc` and unit value `u`:
`strconv.ParseFloat` (one binary64 rounding; `none` is its `ErrRange`
overflow, on which `parseInterval` fails), then `f *= float64(unit)`
(one more binary64 rounding), then `Interval(f)`.  A product that
overflows to +Inf is not an error in the Go code; its conversion is the
implementation-dependent out-of-range result. -/
def intervalValue (nv sc u : Nat) : Option Interval :=
  match fround nv sc with
  | none => none
  | some f =>
      match fround (f.1 * u) f.2 with
      | none => some minInt64
      | some g => some (floatToInt64 g.1 g.2)

/-- The ` ?` group of the regex: at most one separating space. -/
def dropOneSpace (rest : List Char) : List Char :=
  match rest with
  | c :: r => if c = ' ' then r else c :: r
  | [] => []

/-- The tail of `parseInterval` after the number group has been split
off: drop at most one separating space, require a nonempty all-word-char
unit, look it up and multiply.  `none` models the Go error return. -/
def parseIntervalRest (num rest : List Char) : Option Interval :=
  if (dropOneSpace rest).isEmpty then none
  else if (dropOneSpace rest).all isWordChar then
    match unitSeconds (dropOneSpace rest) with
    | none => none
    | some u => intervalValue (numValue num).1 (numValue num).2 u
  else none

/-- `parseInterval` from `interval.go`: match
`^(\d+|\d*\.\d+)? ?(\w+)$` (note: no surrounding whitespace, at most one
space between number and unit), an absent number means 1, then multiply
by the unit and truncate toward zero. -/
def parseInterval (s : String) : Option Interval :=
  parseIntervalRest (splitNum s.toList).1 (splitNum s.toList).2

/-- `strings.TrimSpace` (restricted to ASCII whitespace: space, tab,
newline, vertical tab, form feed, carriage return; the Unicode spaces
it also trims are not modelled and no claim depends on them). -/
def trimSpaces (cs : List Char) : List Char :=
  ((cs.dropWhile fun c =>
      c == ' ' || c == '\t' || c == '\n' || c == '\x0b' || c == '\x0c' || c == '\r').reverse.dropWhile
    fun c =>
      c == ' ' || c == '\t' || c == '\n' || c == '\x0b' || c == '\x0c' || c == '\r').reverse

/-- `strings.SplitN(s, "/", 2)`, as the pair of parts when a slash is
present (`none` when the split yields fewer than two parts). -/
def splitSlash : List Char → Option (List Char × List Char)
  | [] => none
  | '/' :: rest => some ([], rest)
  | c :: rest =>
      match splitSlash rest with
      | some (a, b) => some (c :: a, b)
      | none => none

/-- `strconv.Atoi` (64-bit range errors not modelled). -/
def parseAtoi : List Char → Option Int
  | [] => none
  | '-' :: ds => if !ds.isEmpty && ds.all isDigitChar then some (-(digitsVal ds : Int)) else none
  | '+' :: ds => if !ds.isEmpty && ds.all isDigitChar then some ((digitsVal ds : Int)) else none
  | ds => if ds.all isDigitChar then some ((digitsVal ds : Int)) else none

/-- `Sampling.parseFrom` from `interval.go`: "none" is 0/0, "all" is 1/0,
otherwise `N/Period` with `N ≥ 1` an integer and `Period` an interval
literal, both sides trimmed of whitespace. -/
def parseSampling (raw : String) : Option Sampling :=
  if raw = "none" then some ⟨0, 0⟩
  else if raw = "all" then some ⟨1, 0⟩
  else
    match splitSlash raw.toList with
    | none => none
    | some (l, r) =>
        match parseAtoi (trimSpaces l) with
        | none => none
        | some n =>
            if n < 1 then none
            else
              match parseInterval (String.mk (trimSpaces r)) with
              | none => none
              | some p => some ⟨n, p⟩

/-! ## Policy ordering (`policy.go`) -/

/-- `Policy.Less`: order primarily by window width, narrower first; on a
width tie the later start (larger `Min`) comes first. -/
def Policy.Less (p q : Policy) : Bool :=
  let u := p.max - p.min
  let v := q.max - q.min
  if u = v then decide (p.min > q.min) else decide (u < v)

/-- Normalization step of `sortExp`: `Max == 0` means no upper bound. -/
def normMax (p : Policy) : Policy :=
  if p.max = 0 then { p with max := forever } else p

/-- Insertion step of the model sort. -/
def insertPol (x : Policy) : List Policy → List Policy
  | [] => [x]
  | y :: ys => if Policy.Less x y then x :: y :: ys else y :: insertPol x ys

/-- Sort by `Policy.Less`.  (Go uses `sort.Slice`, which is unspecified
on ties of the strict order; no claim below depends on tie order.) -/
def sortPols : List Policy → List Policy
  | [] => []
  | x :: xs => insertPol x (sortPols xs)

/-- `sortExp` from `policy.go`: normalize `Max == 0` to `forever`, then
sort by `Policy.Less`. -/
def sortExp (es : List Policy) : List Policy := sortPols (es.map normMax)

/-! ## Policy application (`policy.go`) -/

/-- The downward sampling loop of `Policy.apply`, processing the batch
newest-to-oldest (the code walks `i` from `len(batch)-2` down to `0`):
an entry at or after the current bucket base is dropped; otherwise the
base moves down one bucket and the entry is kept as the representative.
The result is the drop list in the order the code appends to it. -/
def sampleWalk (ival : Interval) (base : Interval) : List Archive → List Archive
  | [] => []
  | a :: rest =>
      let age := durationInterval a.created
      if base ≤ age then a :: sampleWalk ival base rest
      else sampleWalk ival (base - ival) rest

/-- The reassignment `batch = batch[:len(batch)-p.Latest]` performed by
`Policy.apply` when `0 < Latest < len(batch)`: the `Latest` most recent
archives are protected. -/
def trimLatest (latest : Int) (batch : List Archive) : List Archive :=
  if latest > 0 then batch.take (batch.length - latest.toNat) else batch

/-- `Policy.apply` from `policy.go`: all input archives expired by `p`.
`batch` is ordered by creation time ascending.  `none` models a runtime
panic: the code divides by `ival = Sample.Period / Sample.N`, which is 0
whenever `0 < Period < N`, and indexes `batch[len(batch)-1]`. -/
def Policy.applyP (p : Policy) (batch : List Archive) : Option (List Archive) :=
  if (batch.length : Int) ≤ p.latest then some []
  else
    match p.sample with
    | none => some (trimLatest p.latest batch)
    | some s =>
        if s.n = 0 then some (trimLatest p.latest batch)
        else if s.period = 0 then some []
        else
          let ival := Int.tdiv s.period s.n
          if ival = 0 then none
          else
            match (trimLatest p.latest batch).getLast? with
            | none => none
            | some lastA =>
                let base := ival * Int.tdiv (durationInterval lastA.created) ival
                some (sampleWalk ival base (trimLatest p.latest batch).dropLast.reverse)

/-! ## Policy resolution and expiry (`config.go`) -/

/-- Go map lookup `c.Policy[name]`: `nil` (here `[]`) for a missing key. -/
def lookupNamed (c : Config) (s : String) : List Policy :=
  match c.policy.lookup s with
  | some ps => ps
  | none => []

/-- `Config.findPolicy`: the expiration rules in effect for backup `b`. -/
def Config.findPolicy (c : Config) (b : Backup) : List Policy :=
  if b.policy = "none" then b.expiration
  else if b.policy = "" then
    (if b.expiration.length = 0 then c.expiration else b.expiration)
  else if b.policy = "default" then c.expiration ++ b.expiration
  else lookupNamed c b.policy ++ b.expiration

/-- Leap year as `time.Parse` computes it. -/
def isLeapYear (y : Nat) : Bool := (y % 4 == 0 && y % 100 != 0) || y % 400 == 0

/-- Days per month as `time.Parse` validates them. -/
def daysInMonth (y m : Nat) : Nat :=
  if m = 2 then (if isLeapYear y then 29 else 28)
  else if m = 4 ∨ m = 6 ∨ m = 9 ∨ m = 11 then 30
  else 31

/-- Success of `time.Parse(".20060102-1504", tag)`: the literal pattern
`.YYYYMMDD-HHMM` with in-range month, day (per month and leap year),
hour and minute. -/
def tagOK (s : String) : Bool :=
  match s.toList with
  | ['.', y1, y2, y3, y4, m1, m2, d1, d2, '-', h1, h2, n1, n2] =>
      if [y1, y2, y3, y4, m1, m2, d1, d2, h1, h2, n1, n2].all isDigitChar then
        let y := digitsVal [y1, y2, y3, y4]
        let mo := digitsVal [m1, m2]
        let d := digitsVal [d1, d2]
        let h := digitsVal [h1, h2]
        let mi := digitsVal [n1, n2]
        decide (1 ≤ mo) && decide (mo ≤ 12) && decide (1 ≤ d) &&
          decide (d ≤ daysInMonth y mo) && decide (h ≤ 23) && decide (mi ≤ 59)
      else false
  | _ => false

/-- The partition step of `FindExpired`: the archives owned by `base`,
in input order, skipping archives whose tag does not parse. -/
def setOf (arch : List Archive) (base : String) : List Archive :=
  (arch.filter fun a => tagOK a.tag).filter fun a => a.base == base

/-- The age an archive has at time `now` (both in nanoseconds):
`durationInterval(now.Sub(a.Created))`. -/
def ageOf (now : Int) (a : Archive) : Interval := durationInterval (now - a.created)

/-- The rule-applicability test of `FindExpired`:
`rule.Min <= age && (rule.Max == 0 || rule.Max >= age)`. -/
def windowContains (r : Policy) (age : Interval) : Bool :=
  decide (r.min ≤ age) && (decide (r.max = 0) || decide (age ≤ r.max))

/-- Index of the first rule whose window contains `age` (the inner loop
of `FindExpired` breaks at the first applicable rule). -/
def assignIdx (exp : List Policy) (age : Interval) : Option Nat :=
  exp.findIdx? fun r => windowContains r age

/-- The batch recorded under rule number `i`: the owned archives whose
first applicable rule is rule `i`, in creation order. -/
def batchOf (exp : List Policy) (now : Int) (owned : List Archive) (i : Nat) : List Archive :=
  owned.filter fun a => assignIdx exp (ageOf now a) == some i

/-- Apply each rule to its batch and concatenate the drops.  Rules with
an empty batch are skipped (they never enter the `rules` map in Go). -/
def applyRulesAux (exp : List Policy) (now : Int) (owned : List Archive) :
    List Policy → Nat → Option (List Archive)
  | [], _ => some []
  | r :: rs, i =>
      if (batchOf exp now owned i).isEmpty then applyRulesAux exp now owned rs (i + 1)
      else
        (Policy.applyP r (batchOf exp now owned i)).bind fun d =>
          (applyRulesAux exp now owned rs (i + 1)).bind fun ds => some (d ++ ds)

/-- All drops contributed by one backup's policy list. -/
def applyRules (exp : List Policy) (now : Int) (owned : List Archive) :
    Option (List Archive) :=
  applyRulesAux exp now owned exp 0

/-- The per-backup loop of `FindExpired`, in config order; a backup with
an empty policy list is skipped. -/
def findExpiredBackups (c : Config) (arch : List Archive) (now : Int) :
    List Backup → Option (List Archive)
  | [] => some []
  | b :: bs =>
      if (c.findPolicy b).isEmpty then findExpiredBackups c arch now bs
      else
        (applyRules (c.findPolicy b) now (setOf arch b.name)).bind fun d =>
          (findExpiredBackups c arch now bs).bind fun ds => some (d ++ ds)

/-- `Config.FindExpired` from `config.go`: the archives eligible for
removal at time `now`.  `none` models a panic inside `Policy.apply`. -/
def Config.findExpired (c : Config) (arch : List Archive) (now : Int) :
    Option (List Archive) :=
  findExpiredBackups c arch now c.backup

/-! ## Load-time validation (`config.go` `Parse`) -/

/-- The validation loop of `Parse`: backup names must be non-empty and
unique, and a backup's policy name must be a key of the named-policy map
whenever it is non-empty (the code exempts neither "default" nor
"none"). -/
def checkBackups (policyKeys : List String) : List Backup → List String → Bool
  | [], _ => true
  | b :: bs, seen =>
      if b.name = "" then false
      else if seen.contains b.name then false
      else if ¬ policyKeys.contains b.policy ∧ b.policy ≠ "" then false
      else checkBackups policyKeys bs (b.name :: seen)

/-- The pure part of `Parse` after YAML decoding: validate the backups,
then normalize and sort every policy list with `sortExp`.  `none` models
the error return. -/
def validateConfig (c : Config) : Option Config :=
  if checkBackups (c.policy.map Prod.fst) c.backup [] then
    some
      { backup := c.backup.map fun b => { b with expiration := sortExp b.expiration }
        expiration := sortExp c.expiration
        policy := c.policy.map fun p => (p.fst, sortExp p.snd) }
  else none

/-- The rule that governs an archive of age `age` under the rule list
`exp` as loaded: the first rule in canonical `sortExp` order whose
window contains `age`. -/
def governing (exp : List Policy) (age : Interval) : Option Policy :=
  (sortExp exp).find? fun r => windowContains r age

/-! ## The spec's interval grammar (for the refinement claim C8) -/

/-- The whitespace class `\s` of Go regexp. -/
def isSpaceRE (c : Char) : Bool :=
  c == ' ' || c == '\t' || c == '\n' || c == '\x0c' || c == '\r'

/-- Modelled from the spec (section 6): acceptance of the interval
literal grammar the spec states, which is the regular expression
with surrounding and separating whitespace
of the shape: start, any spaces, optional number `\d+` or `\d*.\d+`,
any spaces, a section-3 unit token, any spaces, end.  This definition
follows the spec's words, not the code, and exists to be compared with
`parseInterval`. -/
def specIntervalGrammar (s : String) : Bool :=
  let t := trimSpaces s.toList
  let (_, rest) := splitNum t
  let rest' := rest.dropWhile isSpaceRE
  (unitSeconds rest').isSome

/-! ## Arithmetic facts about truncated (Go-style) division -/

/-- The literal in `pow2_1024` is exactly `2 ^ 1024`. -/
lemma pow2_1024_eq : pow2_1024 = 2 ^ 1024 := by unfold pow2_1024; norm_num

lemma tdiv_eq_ediv {a b : Int} (ha : 0 ≤ a) (hb : 0 ≤ b) : a.tdiv b = a / b := by
  obtain ⟨m, rfl⟩ := Int.eq_ofNat_of_zero_le ha
  obtain ⟨n, rfl⟩ := Int.eq_ofNat_of_zero_le hb
  rfl

lemma one_le_tdiv {a b : Int} (hb : 1 ≤ b) (hab : b ≤ a) : 1 ≤ a.tdiv b := by
  have hb0 : (0 : Int) ≤ b := by omega
  have ha : (0 : Int) ≤ a := by omega
  rw [tdiv_eq_ediv ha hb0, Int.le_ediv_iff_mul_le (by omega : (0 : Int) < b)]
  omega

lemma tdiv_mono {a b c : Int} (ha : 0 ≤ a) (h : a ≤ b) (hc : 0 < c) :
    a.tdiv c ≤ b.tdiv c := by
  rw [tdiv_eq_ediv ha (by omega), tdiv_eq_ediv (by omega) (by omega)]
  exact Int.ediv_le_ediv hc h

lemma le_tdiv_of_mul_le {a k c : Int} (hc : 0 < c) (hk : 0 ≤ k) (h : c * k ≤ a) :
    k ≤ a.tdiv c := by
  have ha : (0 : Int) ≤ a := le_trans (mul_nonneg (by omega) hk) h
  rw [tdiv_eq_ediv ha (by omega), Int.le_ediv_iff_mul_le hc]
  nlinarith

lemma tdiv_lt_of_lt_mul {a k c : Int} (ha : 0 ≤ a) (hc : 0 < c) (h : a < c * k) :
    a.tdiv c < k := by
  rw [tdiv_eq_ediv ha (by omega), Int.ediv_lt_iff_lt_mul hc]
  nlinarith

lemma tdiv_le_neg_one {a b : Int} (hb : 0 < b) (h : a ≤ -b) : a.tdiv b ≤ -1 := by
  have h1 : 1 ≤ (-a).tdiv b := one_le_tdiv (by omega) (by omega)
  have h2 : (-a).tdiv b = -(a.tdiv b) := by
    have := Int.neg_tdiv a b
    omega
  omega

/-! ## Structural facts about the sampling walk and policy application -/

lemma sampleWalk_subset {ival : Int} {l : List Archive} :
    ∀ {base : Int} {x : Archive}, x ∈ sampleWalk ival base l → x ∈ l := by
  induction l with
  | nil => intro base x hx; simp [sampleWalk] at hx
  | cons a t ih =>
    intro base x hx
    simp only [sampleWalk] at hx
    split at hx
    · rcases List.mem_cons.mp hx with h | h
      · exact h ▸ List.mem_cons_self _ _
      · exact List.mem_cons_of_mem _ (ih h)
    · exact List.mem_cons_of_mem _ (ih hx)

lemma sampleWalk_base_mono {ival : Int} (hival : 0 < ival) :
    ∀ (l : List Archive) (k1 k2 : Int), k2 ≤ k1 →
      ∀ x ∈ sampleWalk ival (ival * k1) l, x ∈ sampleWalk ival (ival * k2) l := by
  intro l
  induction l with
  | nil => intro k1 k2 _ x hx; simp [sampleWalk] at hx
  | cons a t ih =>
    intro k1 k2 hk x hx
    simp only [sampleWalk] at hx ⊢
    by_cases h1 : ival * k1 ≤ durationInterval a.created
    · have h2 : ival * k2 ≤ durationInterval a.created := by nlinarith
      rw [if_pos h1] at hx
      rw [if_pos h2]
      rcases List.mem_cons.mp hx with h | h
      · exact h ▸ List.mem_cons_self _ _
      · exact List.mem_cons_of_mem _ (ih k1 k2 hk x h)
    · rw [if_neg h1] at hx
      have e1 : ival * k1 - ival = ival * (k1 - 1) := by ring
      rw [e1] at hx
      by_cases h2 : ival * k2 ≤ durationInterval a.created
      · rw [if_pos h2]
        have hk' : k2 ≤ k1 - 1 := by nlinarith [lt_of_not_le h1]
        exact List.mem_cons_of_mem _ (ih (k1 - 1) k2 hk' x hx)
      · rw [if_neg h2]
        have e2 : ival * k2 - ival = ival * (k2 - 1) := by ring
        rw [e2]
        exact ih (k1 - 1) (k2 - 1) (by omega) x hx

lemma trimLatest_subset {latest : Int} {batch : List Archive} :
    ∀ x ∈ trimLatest latest batch, x ∈ batch := by
  intro x hx
  unfold trimLatest at hx
  split at hx
  · exact List.take_subset _ _ hx
  · exact hx

lemma dropLast_subset' {l : List Archive} : ∀ x ∈ l.dropLast, x ∈ l := by
  intro x hx
  rw [List.dropLast_eq_take] at hx
  exact List.take_subset _ _ hx

lemma applyP_subset {p : Policy} {batch d : List Archive}
    (h : Policy.applyP p batch = some d) : ∀ x ∈ d, x ∈ batch := by
  intro x hx
  unfold Policy.applyP at h
  split at h
  · cases h; simp at hx
  · rcases hs : p.sample with _ | s
    · rw [hs] at h
      simp only [Option.some.injEq] at h
      subst h
      exact trimLatest_subset x hx
    · rw [hs] at h
      simp only at h
      split at h
      · simp only [Option.some.injEq] at h
        subst h
        exact trimLatest_subset x hx
      · split at h
        · cases h; simp at hx
        · split at h
          · cases h
          · split at h
            · cases h
            · simp only [Option.some.injEq] at h
              subst h
              have h1 := sampleWalk_subset hx
              rw [List.mem_reverse] at h1
              exact trimLatest_subset x (dropLast_subset' x h1)

lemma findIdx?_exists {α : Type} {p : α → Bool} :
    ∀ {l : List α} {i j : Nat}, List.findIdx? p l i = some j → ∃ x ∈ l, p x = true := by
  intro l
  induction l with
  | nil => intro i j h; simp [List.findIdx?] at h
  | cons a t ih =>
    intro i j h
    simp only [List.findIdx?] at h
    split at h
    · exact ⟨a, List.mem_cons_self _ _, by assumption⟩
    · obtain ⟨x, hx, hp⟩ := ih h
      exact ⟨x, List.mem_cons_of_mem _ hx, hp⟩

lemma batchOf_mem {exp : List Policy} {now : Int} {owned : List Archive} {i : Nat} {x : Archive}
    (hx : x ∈ batchOf exp now owned i) :
    x ∈ owned ∧ ∃ r ∈ exp, windowContains r (ageOf now x) = true := by
  unfold batchOf at hx
  have hsplit := List.mem_filter.mp hx
  refine ⟨hsplit.1, ?_⟩
  have ha : assignIdx exp (ageOf now x) = some i := by simpa using hsplit.2
  unfold assignIdx at ha
  exact findIdx?_exists ha

lemma applyRulesAux_mem {exp : List Policy} {now : Int} {owned : List Archive} :
    ∀ {rs : List Policy} {i : Nat} {out : List Archive},
      applyRulesAux exp now owned rs i = some out →
      ∀ x ∈ out, x ∈ owned ∧ ∃ r ∈ exp, windowContains r (ageOf now x) = true := by
  intro rs
  induction rs with
  | nil =>
    intro i out h x hx
    unfold applyRulesAux at h
    cases h
    simp at hx
  | cons r rs ih =>
    intro i out h x hx
    unfold applyRulesAux at h
    split at h
    · exact ih h x hx
    · rw [Option.bind_eq_some] at h
      obtain ⟨d, hd, h2⟩ := h
      rw [Option.bind_eq_some] at h2
      obtain ⟨ds, hds, h3⟩ := h2
      simp only [Option.some.injEq] at h3
      subst h3
      rcases List.mem_append.mp hx with hxd | hxds
      · exact batchOf_mem (applyP_subset hd x hxd)
      · exact ih hds x hxds

lemma setOf_tagOK {arch : List Archive} {base : String} {x : Archive}
    (hx : x ∈ setOf arch base) : tagOK x.tag = true ∧ x ∈ arch := by
  unfold setOf at hx
  have h1 := (List.mem_filter.mp hx).1
  have h2 := List.mem_filter.mp h1
  exact ⟨h2.2, h2.1⟩

lemma findExpiredBackups_mem {c : Config} {arch : List Archive} {now : Int} :
    ∀ {bs : List Backup} {out : List Archive},
      findExpiredBackups c arch now bs = some out →
      ∀ x ∈ out, tagOK x.tag = true ∧
        ∃ b ∈ bs, ∃ r ∈ c.findPolicy b, windowContains r (ageOf now x) = true := by
  intro bs
  induction bs with
  | nil =>
    intro out h x hx
    unfold findExpiredBackups at h
    cases h
    simp at hx
  | cons b bs ih =>
    intro out h x hx
    unfold findExpiredBackups at h
    split at h
    · obtain ⟨ht, b', hb', hr⟩ := ih h x hx
      exact ⟨ht, b', List.mem_cons_of_mem _ hb', hr⟩
    · rw [Option.bind_eq_some] at h
      obtain ⟨d, hd, h2⟩ := h
      rw [Option.bind_eq_some] at h2
      obtain ⟨ds, hds, h3⟩ := h2
      simp only [Option.some.injEq] at h3
      subst h3
      rcases List.mem_append.mp hx with hxd | hxds
      · unfold applyRules at hd
        obtain ⟨hxset, r, hr, hw⟩ := applyRulesAux_mem hd x hxd
        exact ⟨(setOf_tagOK hxset).1, b, List.mem_cons_self _ _, r, hr, hw⟩
      · obtain ⟨ht, b', hb', hr⟩ := ih hds x hxds
        exact ⟨ht, b', List.mem_cons_of_mem _ hb', hr⟩

lemma findExpired_mem {c : Config} {arch : List Archive} {now : Int} {out : List Archive}
    (h : Config.findExpired c arch now = some out) :
    ∀ x ∈ out, tagOK x.tag = true ∧
      ∃ b ∈ c.backup, ∃ r ∈ c.findPolicy b, windowContains r (ageOf now x) = true :=
  findExpiredBackups_mem h

/-! ## Concrete fixtures used by witnesses -/

/-- A one-backup configuration whose single rule has window `[0, ∞)`,
keeps nothing unconditionally and samples nothing: every owned archive
of nonnegative age is dropped. -/
def cfgDropAll : Config := ⟨[⟨"b", [⟨0, 0, 0, none⟩], ""⟩], [], []⟩

/-- An archive of `cfgDropAll` with a well-formed tag. -/
def arcGood : Archive := ⟨"b.20190101-0100", "b", ".20190101-0100", 0⟩

/-- An archive whose tag does not parse as `.YYYYMMDD-HHMM`. -/
def arcBad : Archive := ⟨"bad", "b", "junk", 0⟩

/-- An archive created two seconds after the witness's `now`. -/
def arcFuture : Archive := ⟨"b.20190101-0200", "b", ".20190101-0200", 3 * nsPerSec⟩

/-- Claim C7: an archive whose tag does not parse as the literal pattern
`.YYYYMMDD-HHMM` is never an element of the list returned by
`FindExpired` (such archives are skipped during partitioning, without an
error). -/
theorem findExpired_never_drops_unparsed_tags
    (c : Config) (arch : List Archive) (now : Int) (a : Archive) (out : List Archive)
    (hbad : tagOK a.tag = false)
    (h : Config.findExpired c arch now = some out) : a ∉ out := by
  intro hmem
  have ht := (findExpired_mem h a hmem).1
  rw [ht] at hbad
  cases hbad

theorem findExpired_never_drops_unparsed_tags_witness :
    tagOK arcBad.tag = false ∧
    Config.findExpired cfgDropAll [arcBad, arcGood] nsPerSec = some [arcGood] ∧
    arcBad ∉ [arcGood] :=
  ⟨by decide, by decide,
    findExpired_never_drops_unparsed_tags cfgDropAll [arcBad, arcGood] nsPerSec arcBad
      [arcGood] (by decide) (by decide)⟩

/-- Claim C10: in a configuration whose rules all have `Min ≥ 0` (as
interval parsing guarantees), an archive created at least one full
second after `now` has negative computed age, is in no rule window, and
is never returned by `FindExpired`. -/
theorem findExpired_never_drops_future_archives
    (c : Config) (arch : List Archive) (now : Int) (a : Archive) (out : List Archive)
    (hmins : ∀ b ∈ c.backup, ∀ r ∈ c.findPolicy b, 0 ≤ r.min)
    (hfut : now + nsPerSec ≤ a.created)
    (h : Config.findExpired c arch now = some out) : a ∉ out := by
  intro hmem
  obtain ⟨-, b, hb, r, hr, hw⟩ := findExpired_mem h a hmem
  have hmin := hmins b hb r hr
  have hns : (0 : Int) < nsPerSec := by norm_num [nsPerSec]
  have hdiff : now - a.created ≤ -nsPerSec := by omega
  have hage : ageOf now a ≤ -1 := tdiv_le_neg_one hns hdiff
  unfold windowContains at hw
  simp only [Bool.and_eq_true, decide_eq_true_eq] at hw
  have hw1 : r.min ≤ ageOf now a := hw.1
  exact absurd (le_trans hmin (le_trans hw1 hage)) (by norm_num)

theorem findExpired_never_drops_future_archives_witness :
    (∀ b ∈ cfgDropAll.backup, ∀ r ∈ cfgDropAll.findPolicy b, 0 ≤ r.min) ∧
    nsPerSec + nsPerSec ≤ arcFuture.created ∧
    Config.findExpired cfgDropAll [arcGood, arcFuture] nsPerSec = some [arcGood] ∧
    arcFuture ∉ [arcGood] :=
  ⟨by decide, by decide, by decide,
    findExpired_never_drops_future_archives cfgDropAll [arcGood, arcFuture] nsPerSec
      arcFuture [arcGood] (by decide) (by decide) (by decide)⟩

lemma trimLatest_dropLast_subset {latest : Int} {batch : List Archive}
    (h0 : 0 ≤ latest) (hlt : latest < (batch.length : Int)) :
    ∀ x ∈ (trimLatest latest batch).dropLast, x ∈ batch.dropLast := by
  intro x hx
  unfold trimLatest at hx
  split at hx
  · have hx1 := dropLast_subset' x hx
    rw [List.dropLast_eq_take]
    have he : List.take (batch.length - latest.toNat) batch
        = List.take (batch.length - latest.toNat) (List.take (batch.length - 1) batch) := by
      rw [List.take_take]
      congr 1
      omega
    rw [he] at hx1
    exact List.take_subset _ _ hx1
  · exact hx

lemma trimLatest_ne_nil {latest : Int} {batch : List Archive}
    (h0 : 0 ≤ latest) (hlt : latest < (batch.length : Int)) :
    trimLatest latest batch ≠ [] := by
  unfold trimLatest
  split
  · intro hemp
    have := congrArg List.length hemp
    rw [List.length_take] at this
    simp only [List.length_nil] at this
    omega
  · intro hemp
    rw [hemp] at hlt
    simp only [List.length_nil] at hlt
    omega

/-- Claim C9: for a policy with sampling enabled (`Sample` non-nil,
`N ≥ 1`, `Period` zero or at least `N`) and a batch sorted ascending by
creation time with `len(batch) > Latest ≥ 0`, `Policy.apply` succeeds
and never drops the most recent archive of the batch: every dropped
entry comes from `batch` with its final entry removed. -/
theorem applyP_keeps_newest
    (p : Policy) (batch : List Archive) (s : Sampling)
    (hs : p.sample = some s) (hn : 1 ≤ s.n) (hp : s.period = 0 ∨ s.n ≤ s.period)
    (hl0 : 0 ≤ p.latest) (hll : p.latest < (batch.length : Int))
    (hasc : ascendingB batch = true) :
    ∃ d, Policy.applyP p batch = some d ∧ ∀ x ∈ d, x ∈ batch.dropLast := by
  unfold Policy.applyP
  rw [if_neg (by omega), hs]
  simp only
  rw [if_neg (by omega : ¬ s.n = 0)]
  rcases hp with hp0 | hnp
  · rw [if_pos hp0]
    exact ⟨[], rfl, by simp⟩
  · have hper0 : ¬ s.period = 0 := by
      intro h0
      rw [h0] at hnp
      omega
    rw [if_neg hper0]
    have hival : 1 ≤ Int.tdiv s.period s.n := one_le_tdiv hn hnp
    have hival0 : ¬ Int.tdiv s.period s.n = 0 := by
      intro h0
      rw [h0] at hival
      exact absurd hival (by norm_num)
    rw [if_neg hival0]
    rcases hgl : (trimLatest p.latest batch).getLast? with _ | lastA
    · exact absurd (List.getLast?_eq_none_iff.mp hgl) (trimLatest_ne_nil hl0 hll)
    · refine ⟨_, rfl, ?_⟩
      intro x hx
      have h1 := sampleWalk_subset hx
      rw [List.mem_reverse] at h1
      exact trimLatest_dropLast_subset hl0 hll x h1

theorem applyP_keeps_newest_witness :
    (⟨0, 0, 0, some ⟨1, 10⟩⟩ : Policy).sample = some ⟨1, 10⟩ ∧
    (1 : Int) ≤ 1 ∧ ((10 : Int) = 0 ∨ (1 : Int) ≤ 10) ∧
    (0 : Int) ≤ 0 ∧ (0 : Int) < ([arcGood] : List Archive).length ∧
    ascendingB [arcGood] = true ∧
    (∃ d, Policy.applyP ⟨0, 0, 0, some ⟨1, 10⟩⟩ [arcGood] = some d ∧
      ∀ x ∈ d, x ∈ ([arcGood] : List Archive).dropLast) :=
  ⟨rfl, by norm_num, Or.inr (by norm_num), le_refl 0, by decide, by decide,
    applyP_keeps_newest ⟨0, 0, 0, some ⟨1, 10⟩⟩ [arcGood] ⟨1, 10⟩ rfl (by norm_num)
      (Or.inr (by norm_num)) (le_refl 0) (by decide) (by decide)⟩

/-! ## Claim C4: monotonicity in Latest -/

/-- Archives created 2 s, 3 s and 25 s after the epoch, with valid tags,
sorted ascending.  With bucket width 10 s these exercise the sampling
walk across bucket boundaries. -/
def arcEp2 : Archive := ⟨"b.20190101-0000", "b", ".20190101-0000", 2 * nsPerSec⟩

def arcEp3 : Archive := ⟨"b.20190101-0001", "b", ".20190101-0001", 3 * nsPerSec⟩

def arcEp25 : Archive := ⟨"b.20190101-0002", "b", ".20190101-0002", 25 * nsPerSec⟩

/-- A second archive owned by `cfgDropAll`, newer than `arcGood`. -/
def arcGood2 : Archive := ⟨"b.20190101-0300", "b", ".20190101-0300", 2 * nsPerSec⟩

/-- Claim C4 is false as stated: for the sampling rule 1 per 10 s and the
ascending batch (2 s, 3 s, 25 s), raising `Latest` from 0 to 1 adds the
archive at 2 s to the drop set.  With `Latest = 0` the entry at 25 s
anchors the bucket base at 20 s and both older entries are kept as
representatives; with `Latest = 1` the entry at 3 s anchors the base at
0 s and the entry at 2 s falls into the same bucket and is dropped. -/
theorem applyP_latest_not_antitone_with_sampling :
    ascendingB [arcEp2, arcEp3, arcEp25] = true ∧
    Policy.applyP ⟨0, 0, 0, some ⟨1, 10⟩⟩ [arcEp2, arcEp3, arcEp25] = some [] ∧
    Policy.applyP ⟨0, 0, 1, some ⟨1, 10⟩⟩ [arcEp2, arcEp3, arcEp25] = some [arcEp2] ∧
    (⟨0, 0, 1, some ⟨1, 10⟩⟩ : Policy) = { (⟨0, 0, 0, some ⟨1, 10⟩⟩ : Policy) with latest := 1 } ∧
    (0 : Int) < 1 := by decide

lemma trimLatest_antitone {l l' : Int} (hll : l ≤ l') {batch : List Archive} :
    ∀ x ∈ trimLatest l' batch, x ∈ trimLatest l batch := by
  intro x hx
  unfold trimLatest at hx ⊢
  by_cases h' : l' > 0
  · rw [if_pos h'] at hx
    by_cases h : l > 0
    · rw [if_pos h]
      have he : List.take (batch.length - l'.toNat) batch
          = List.take (batch.length - l'.toNat) (List.take (batch.length - l.toNat) batch) := by
        rw [List.take_take]
        congr 1
        omega
      rw [he] at hx
      exact List.take_subset _ _ hx
    · rw [if_neg h]
      exact List.take_subset _ _ hx
  · rw [if_neg h'] at hx
    rw [if_neg (by omega : ¬ l > 0)]
    exact hx

lemma applyP_sampling_disabled {p : Policy} (batch : List Archive)
    (h : p.sample = none ∨ ∃ s, p.sample = some s ∧ s.n = 0) :
    Policy.applyP p batch =
      some (if (batch.length : Int) ≤ p.latest then [] else trimLatest p.latest batch) := by
  unfold Policy.applyP
  split
  · rfl
  · rcases h with hnone | ⟨s, hs, hn0⟩
    · rw [hnone]
    · rw [hs]
      simp only [if_pos hn0]

lemma applyP_period_zero {p : Policy} (batch : List Archive) {s : Sampling}
    (hs : p.sample = some s) (hn : ¬ s.n = 0) (hp : s.period = 0) :
    Policy.applyP p batch = some [] := by
  unfold Policy.applyP
  split
  · rfl
  · rw [hs]
    simp only [if_neg hn, if_pos hp]

/-- Claim C4 (amended): for a rule whose sampling is disabled (`Sample`
nil, `N = 0`, or `Period = 0` meaning "all"), replacing `Latest` by any
larger value never adds an archive to the set returned by
`Policy.apply`: without sampling the drop set is antitone in `Latest`.
(The unamended claim fails for enabled sampling; see the
counterexample.) -/
theorem applyP_latest_antitone_without_sampling
    (p : Policy) (batch : List Archive) (l l' : Int)
    (hcond : p.sample = none ∨ ∃ s, p.sample = some s ∧ (s.n = 0 ∨ s.period = 0))
    (hll : l ≤ l')
    (d d' : List Archive)
    (hd : Policy.applyP { p with latest := l } batch = some d)
    (hd' : Policy.applyP { p with latest := l' } batch = some d')
    (x : Archive) (hx : x ∈ d') : x ∈ d := by
  have hdis : ({ p with latest := l } : Policy).sample = p.sample := rfl
  have hdis' : ({ p with latest := l' } : Policy).sample = p.sample := rfl
  rcases hcond with hnone | ⟨s, hs, hn0 | hp0⟩
  · rw [applyP_sampling_disabled batch (Or.inl (hdis.trans hnone))] at hd
    rw [applyP_sampling_disabled batch (Or.inl (hdis'.trans hnone))] at hd'
    simp only [Option.some.injEq] at hd hd'
    subst hd hd'
    split at hx
    · simp at hx
    · have hnl : ¬ (batch.length : Int) ≤ l := by omega
      rw [if_neg hnl]
      exact trimLatest_antitone hll x hx
  · rw [applyP_sampling_disabled batch (Or.inr ⟨s, hdis.trans hs, hn0⟩)] at hd
    rw [applyP_sampling_disabled batch (Or.inr ⟨s, hdis'.trans hs, hn0⟩)] at hd'
    simp only [Option.some.injEq] at hd hd'
    subst hd hd'
    split at hx
    · simp at hx
    · have hnl : ¬ (batch.length : Int) ≤ l := by omega
      rw [if_neg hnl]
      exact trimLatest_antitone hll x hx
  · by_cases hn0 : s.n = 0
    · rw [applyP_sampling_disabled batch (Or.inr ⟨s, hdis.trans hs, hn0⟩)] at hd
      rw [applyP_sampling_disabled batch (Or.inr ⟨s, hdis'.trans hs, hn0⟩)] at hd'
      simp only [Option.some.injEq] at hd hd'
      subst hd hd'
      split at hx
      · simp at hx
      · have hnl : ¬ (batch.length : Int) ≤ l := by omega
        rw [if_neg hnl]
        exact trimLatest_antitone hll x hx
    · rw [applyP_period_zero batch (hdis'.trans hs) hn0 hp0] at hd'
      simp only [Option.some.injEq] at hd'
      subst hd'
      simp at hx

theorem applyP_latest_antitone_without_sampling_witness :
    ((⟨0, 0, 0, none⟩ : Policy).sample = none ∨
      ∃ s, (⟨0, 0, 0, none⟩ : Policy).sample = some s ∧ (s.n = 0 ∨ s.period = 0)) ∧
    (0 : Int) ≤ 1 ∧
    Policy.applyP { (⟨0, 0, 0, none⟩ : Policy) with latest := (0 : Int) } [arcGood, arcGood2]
      = some [arcGood, arcGood2] ∧
    Policy.applyP { (⟨0, 0, 0, none⟩ : Policy) with latest := (1 : Int) } [arcGood, arcGood2]
      = some [arcGood] ∧
    arcGood ∈ ([arcGood] : List Archive) ∧
    arcGood ∈ ([arcGood, arcGood2] : List Archive) :=
  ⟨Or.inl rfl, by norm_num, by decide, by decide, by decide,
    applyP_latest_antitone_without_sampling ⟨0, 0, 0, none⟩ [arcGood, arcGood2] 0 1
      (Or.inl rfl) (by norm_num) [arcGood, arcGood2] [arcGood] (by decide) (by decide)
      arcGood (by decide)⟩

/-! ## Claim C5: stability of sampling under later arrivals -/

/-- One backup with the single sampling rule 1 per 10 s over `[0, ∞)`. -/
def cfgStable : Config := ⟨[⟨"b", [⟨0, 0, 0, some ⟨1, 10⟩⟩], ""⟩], [], []⟩

/-- An archive of `cfgStable` created 15 s after the epoch. -/
def arcOld : Archive := ⟨"b.20190101-0100", "b", ".20190101-0100", 15 * nsPerSec⟩

/-- An archive of `cfgStable` created 16 s after the epoch, inside the
same 10 s sampling bucket as `arcOld`. -/
def arcNew : Archive := ⟨"b.20190101-0200", "b", ".20190101-0200", 16 * nsPerSec⟩

/-- Claim C5 is false as stated: take `A = [arcOld]` (created 15 s),
`newer = arcNew` (created 16 s, no earlier than any element of `A`),
`now = 20 s` and `now' = 16 s ≤ created(newer)`.  With `newer` present,
`arcOld` shares the epoch-anchored 10 s bucket `[10 s, 20 s)` with the
newer anchor and is dropped; without `newer`, `arcOld` is itself the
bucket representative and is kept. -/
theorem findExpired_append_not_stable :
    arcOld.created ≤ arcNew.created ∧
    16 * nsPerSec ≤ arcNew.created ∧
    Config.findExpired cfgStable [arcOld, arcNew] (20 * nsPerSec) = some [arcOld] ∧
    Config.findExpired cfgStable [arcOld] (16 * nsPerSec) = some [] ∧
    arcOld ∈ ([arcOld] : List Archive) ∧ arcOld ∉ ([] : List Archive) := by decide

lemma exists_append_of_getLast? {l : List Archive} {y : Archive}
    (h : l.getLast? = some y) : ∃ t, l = t ++ [y] := by
  induction l with
  | nil => simp [List.getLast?] at h
  | cons a t ih =>
    cases t with
    | nil =>
      simp [List.getLast?] at h
      exact ⟨[], by simp [h]⟩
    | cons b t2 =>
      rw [List.getLast?_cons_cons] at h
      obtain ⟨t', ht'⟩ := ih h
      exact ⟨a :: t', by simp [ht']⟩

lemma applyP_latest_zero_sampling {p : Policy} {s : Sampling} (l : List Archive) (y : Archive)
    (hl : p.latest = 0) (hs : p.sample = some s) (hn : 1 ≤ s.n) (hnp : s.n ≤ s.period) :
    Policy.applyP p (l ++ [y]) =
      some (sampleWalk (Int.tdiv s.period s.n)
        (Int.tdiv s.period s.n *
          Int.tdiv (durationInterval y.created) (Int.tdiv s.period s.n))
        l.reverse) := by
  unfold Policy.applyP
  have hlen : ¬ (((l ++ [y]).length : Int) ≤ p.latest) := by
    rw [hl, List.length_append]
    simp only [List.length_singleton]
    push_cast
    omega
  rw [if_neg hlen, hs]
  simp only
  rw [if_neg (by omega : ¬ s.n = 0)]
  have hper0 : ¬ s.period = 0 := by
    intro h0
    rw [h0] at hnp
    omega
  rw [if_neg hper0]
  have hival : 1 ≤ Int.tdiv s.period s.n := one_le_tdiv hn hnp
  have hival0 : ¬ Int.tdiv s.period s.n = 0 := by
    intro h0
    rw [h0] at hival
    exact absurd hival (by norm_num)
  have htrim : trimLatest p.latest (l ++ [y]) = l ++ [y] := by
    unfold trimLatest
    rw [hl]
    simp
  rw [htrim, if_neg hival0, List.getLast?_concat]
  simp only [List.dropLast_concat]

/-- Claim C5 (amended): for a single rule with `Latest = 0`, enabled
sampling with bucket width at least one second (`1 ≤ N ≤ Period`), and
archives timestamped at or after the epoch, appending one archive
`newer` created no earlier than the last element of the batch can
retroactively drop only that last element (the previous representative
of the bucket `newer` lands in): any other archive dropped from
`batch ++ [newer]` was already dropped from `batch` alone.  The
unamended claim additionally varies the evaluation time `now` and fails;
see the counterexample. -/
theorem applyP_sampling_append_stable
    (p : Policy) (s : Sampling) (batch : List Archive) (y newer x : Archive)
    (hl : p.latest = 0) (hs : p.sample = some s)
    (hn : 1 ≤ s.n) (hnp : s.n ≤ s.period)
    (hy : batch.getLast? = some y)
    (hy0 : 0 ≤ y.created) (hyz : y.created ≤ newer.created)
    (d d' : List Archive)
    (hd : Policy.applyP p (batch ++ [newer]) = some d)
    (hd' : Policy.applyP p batch = some d')
    (hx : x ∈ d) : x ∈ d' ∨ x = y := by
  obtain ⟨t, rfl⟩ := exists_append_of_getLast? hy
  have hns : (0 : Int) < nsPerSec := by norm_num [nsPerSec]
  have hival : 1 ≤ Int.tdiv s.period s.n := one_le_tdiv hn hnp
  have hivalpos : (0 : Int) < Int.tdiv s.period s.n := by omega
  rw [applyP_latest_zero_sampling (t ++ [y]) newer hl hs hn hnp] at hd
  rw [applyP_latest_zero_sampling t y hl hs hn hnp] at hd'
  simp only [Option.some.injEq] at hd hd'
  subst hd hd'
  rw [List.reverse_append, List.reverse_singleton, List.singleton_append] at hx
  set ival := Int.tdiv s.period s.n with hival_def
  set Y := durationInterval y.created with hY_def
  set Z := durationInterval newer.created with hZ_def
  have hY0 : 0 ≤ Y := Int.tdiv_nonneg hy0 (by omega)
  have hYZ : Y ≤ Z := tdiv_mono hy0 hyz hns
  have hky0 : 0 ≤ Int.tdiv Y ival := Int.tdiv_nonneg hY0 (by omega)
  have hkz0 : 0 ≤ Int.tdiv Z ival := Int.tdiv_nonneg (le_trans hY0 hYZ) (by omega)
  have hkyz : Int.tdiv Y ival ≤ Int.tdiv Z ival := tdiv_mono hY0 hYZ hivalpos
  simp only [sampleWalk] at hx
  by_cases hcase : ival * Int.tdiv Z ival ≤ Y
  · rw [if_pos hcase] at hx
    have hzy : Int.tdiv Z ival ≤ Int.tdiv Y ival := le_tdiv_of_mul_le hivalpos hkz0 hcase
    have heq : Int.tdiv Y ival = Int.tdiv Z ival := le_antisymm hkyz hzy
    rcases List.mem_cons.mp hx with h | h
    · exact Or.inr h
    · rw [← heq] at h
      exact Or.inl h
  · rw [if_neg hcase] at hx
    have hYlt : Y < ival * Int.tdiv Z ival := lt_of_not_le hcase
    have hky_lt : Int.tdiv Y ival < Int.tdiv Z ival := tdiv_lt_of_lt_mul hY0 hivalpos hYlt
    have e1 : ival * Int.tdiv Z ival - ival = ival * (Int.tdiv Z ival - 1) := by ring
    rw [e1] at hx
    exact Or.inl (sampleWalk_base_mono hivalpos t.reverse (Int.tdiv Z ival - 1)
      (Int.tdiv Y ival) (by omega) x hx)

theorem applyP_sampling_append_stable_witness :
    (⟨0, 0, 0, some ⟨1, 10⟩⟩ : Policy).latest = 0 ∧
    (⟨0, 0, 0, some ⟨1, 10⟩⟩ : Policy).sample = some ⟨1, 10⟩ ∧
    (1 : Int) ≤ 1 ∧ (1 : Int) ≤ 10 ∧
    ([arcOld] : List Archive).getLast? = some arcOld ∧
    (0 : Int) ≤ arcOld.created ∧ arcOld.created ≤ arcNew.created ∧
    Policy.applyP ⟨0, 0, 0, some ⟨1, 10⟩⟩ ([arcOld] ++ [arcNew]) = some [arcOld] ∧
    Policy.applyP ⟨0, 0, 0, some ⟨1, 10⟩⟩ [arcOld] = some [] ∧
    arcOld ∈ ([arcOld] : List Archive) ∧
    (arcOld ∈ ([] : List Archive) ∨ arcOld = arcOld) :=
  ⟨rfl, rfl, by norm_num, by norm_num, by decide, by decide, by decide, by decide, by decide,
    by decide,
    applyP_sampling_append_stable ⟨0, 0, 0, some ⟨1, 10⟩⟩ ⟨1, 10⟩ [arcOld] arcOld arcNew
      arcOld rfl rfl (by norm_num) (by norm_num) (by decide) (by decide) (by decide)
      [arcOld] [] (by decide) (by decide) (by decide)⟩

/-! ## Claim C3: rule selection for an archive of age 7 days -/

/-- Scenario C rule R1: window 1 d to 10 d. -/
def ruleC3R1 : Policy := ⟨86400, 864000, 0, none⟩

/-- Scenario C rule R2: window 4 d to 8 d. -/
def ruleC3R2 : Policy := ⟨345600, 691200, 0, none⟩

/-- Scenario C rule R3: window 5 d to 9 d. -/
def ruleC3R3 : Policy := ⟨432000, 777600, 0, none⟩

/-- Scenario C rule R4: window 3 d to 6 d. -/
def ruleC3R4 : Policy := ⟨259200, 518400, 0, none⟩

/-- Claim C3 is false as stated: at age 7 d the governing rule (first in
canonical sorted order whose window contains the age) is not R2.  R2 and
R3 tie on width 4 d and the tie-break prefers the larger `Min`, so R3
(Min 5 d) precedes R2 (Min 4 d), and R3's window contains 7 d. -/
theorem governing_age7d_not_R2 :
    governing [ruleC3R1, ruleC3R2, ruleC3R3, ruleC3R4] (7 * 86400) ≠ some ruleC3R2 := by
  decide

/-- Claim C3 (amended): at age 7 d, with rules R1(1d..10d), R2(4d..8d),
R3(5d..9d), R4(3d..6d), the governing rule is R3: the sorted order is
R4, R3, R2, R1 (width ascending, later start first on the R2/R3 tie);
R4 does not span 7 d and R3 does. -/
theorem governing_age7d_is_R3 :
    governing [ruleC3R1, ruleC3R2, ruleC3R3, ruleC3R4] (7 * 86400) = some ruleC3R3 := by
  decide

/-! ## Claim C6: policy resolution -/

/-- Claim C6: `findPolicy` returns the backup's own rules for policy
"none"; its own rules (or the defaults when it has none) for the empty
policy; the defaults concatenated before its own rules for "default";
and the named policy's rules concatenated before its own rules for any
other name.  In particular a backup with policy "default" and explicit
latest-7 rule over a default latest-1 rule resolves to exactly
latest-1 then latest-7, and a backup with policy "none" and explicit
latest-6 rule resolves to exactly latest-6. -/
theorem findPolicy_resolution :
    (∀ (c : Config) (b : Backup), b.policy = "none" →
      Config.findPolicy c b = b.expiration) ∧
    (∀ (c : Config) (b : Backup), b.policy = "" → b.expiration ≠ [] →
      Config.findPolicy c b = b.expiration) ∧
    (∀ (c : Config) (b : Backup), b.policy = "" → b.expiration = [] →
      Config.findPolicy c b = c.expiration) ∧
    (∀ (c : Config) (b : Backup), b.policy = "default" →
      Config.findPolicy c b = c.expiration ++ b.expiration) ∧
    (∀ (c : Config) (b : Backup), b.policy ≠ "none" → b.policy ≠ "" →
      b.policy ≠ "default" →
      Config.findPolicy c b = lookupNamed c b.policy ++ b.expiration) ∧
    Config.findPolicy ⟨[], [⟨0, 0, 1, none⟩], []⟩ ⟨"d", [⟨0, 0, 7, none⟩], "default"⟩
      = [⟨0, 0, 1, none⟩, ⟨0, 0, 7, none⟩] ∧
    Config.findPolicy ⟨[], [⟨0, 0, 1, none⟩], []⟩ ⟨"e", [⟨0, 0, 6, none⟩], "none"⟩
      = [⟨0, 0, 6, none⟩] := by
  refine ⟨?_, ?_, ?_, ?_, ?_, by decide, by decide⟩
  · intro c b h
    unfold Config.findPolicy
    rw [if_pos h]
  · intro c b h hne
    unfold Config.findPolicy
    rw [if_neg (by rw [h]; decide), if_pos h,
      if_neg fun hh => hne (List.length_eq_zero.mp hh)]
  · intro c b h h2
    unfold Config.findPolicy
    rw [if_neg (by rw [h]; decide), if_pos h, if_pos (by rw [h2]; rfl)]
  · intro c b h
    unfold Config.findPolicy
    rw [if_neg (by rw [h]; decide), if_neg (by rw [h]; decide), if_pos h]
  · intro c b h1 h2 h3
    unfold Config.findPolicy
    rw [if_neg h1, if_neg h2, if_neg h3]

/-- A small configuration exercising every `findPolicy` case. -/
def cfgResolve : Config := ⟨[], [⟨0, 0, 1, none⟩], [("named", [⟨0, 0, 2, none⟩])]⟩

theorem findPolicy_resolution_witness :
    Config.findPolicy cfgResolve ⟨"x", [⟨0, 0, 6, none⟩], "none"⟩
      = (⟨"x", [⟨0, 0, 6, none⟩], "none"⟩ : Backup).expiration ∧
    Config.findPolicy cfgResolve ⟨"x", [⟨0, 0, 3, none⟩], ""⟩
      = (⟨"x", [⟨0, 0, 3, none⟩], ""⟩ : Backup).expiration ∧
    Config.findPolicy cfgResolve ⟨"x", [], ""⟩ = cfgResolve.expiration ∧
    Config.findPolicy cfgResolve ⟨"x", [⟨0, 0, 7, none⟩], "default"⟩
      = cfgResolve.expiration ++ (⟨"x", [⟨0, 0, 7, none⟩], "default"⟩ : Backup).expiration ∧
    Config.findPolicy cfgResolve ⟨"x", [⟨0, 0, 4, none⟩], "named"⟩
      = lookupNamed cfgResolve "named"
        ++ (⟨"x", [⟨0, 0, 4, none⟩], "named"⟩ : Backup).expiration :=
  ⟨findPolicy_resolution.1 cfgResolve _ rfl,
   findPolicy_resolution.2.1 cfgResolve _ rfl (by decide),
   findPolicy_resolution.2.2.1 cfgResolve _ rfl rfl,
   findPolicy_resolution.2.2.2.1 cfgResolve _ rfl,
   findPolicy_resolution.2.2.2.2.1 cfgResolve _ (by decide) (by decide) (by decide)⟩

/-! ## Claim C1: totality of the retention engine -/

set_option maxRecDepth 100000 in
/-- Claim C1 is a code bug: the sampling literal "5/2s" validates
(`N = 5 ≥ 1`, `Period = 2 s`), but `Policy.apply` computes the bucket
width `ival = Period / N = 0` and then divides by it, a runtime panic
(modelled by `none`).  The retention engine is therefore not total on
validated inputs, contrary to the claim and to the spec's propagation
policy. -/
theorem applyP_divide_by_zero_on_validated_sampling :
    parseSampling "5/2s" = some ⟨5, 2⟩ ∧
    Policy.applyP ⟨0, 0, 0, some ⟨5, 2⟩⟩ [arcGood] = none := by decide

/-! ## Claim C2: validation of reserved policy names -/

/-- Claim C2 is a code bug: the validation loop of `Parse` rejects a
backup whose policy name is the reserved string "none" or "default"
whenever that string is not a key of the named-policy map, even though
`findPolicy`, the `Backup.Policy` documentation, and the repository's
own example configuration (backup set-two uses `policy: none` with no
such key) all treat those names as reserved.  An empty policy name is
accepted. -/
theorem validateConfig_rejects_reserved_policy_names :
    validateConfig ⟨[⟨"set", [], "none"⟩], [], []⟩ = none ∧
    validateConfig ⟨[⟨"set", [], "default"⟩], [], []⟩ = none ∧
    validateConfig ⟨[⟨"set", [], ""⟩], [], []⟩ ≠ none := by decide

/-! ## Claim C8: the interval-literal grammar -/

lemma takeWhile_all_append {p : Char → Bool} :
    ∀ (l r : List Char), l.all p = true → (∀ c r2, r = c :: r2 → p c = false) →
      (l ++ r).takeWhile p = l ∧ (l ++ r).dropWhile p = r := by
  intro l
  induction l with
  | nil =>
    intro r _ hr
    rcases r with _ | ⟨c, r2⟩
    · exact ⟨rfl, rfl⟩
    · have hpc := hr c r2 rfl
      simp [List.takeWhile_cons, List.dropWhile_cons, hpc]
  | cons a l ih =>
    intro r hall hr
    rw [List.all_cons, Bool.and_eq_true] at hall
    have hrec := ih r hall.2 hr
    constructor
    · rw [List.cons_append, List.takeWhile_cons, if_pos hall.1, hrec.1]
    · rw [List.cons_append, List.dropWhile_cons, if_pos hall.1, hrec.2]

lemma numericTok_shape {cs : List Char} (h : numericTok cs = true) :
    (cs ≠ [] ∧ cs.all isDigitChar = true) ∨
      ∃ d1 fp, cs = d1 ++ '.' :: fp ∧ d1.all isDigitChar = true ∧ fp ≠ [] ∧
        fp.all isDigitChar = true := by
  unfold numericTok at h
  rw [Bool.or_eq_true] at h
  rcases h with h | h
  · rw [Bool.and_eq_true] at h
    refine Or.inl ⟨?_, h.2⟩
    intro hemp
    rw [hemp] at h
    simp at h
  · rcases hd : cs.dropWhile isDigitChar with _ | ⟨c, fp⟩
    · rw [hd] at h
      cases h
    · rw [hd] at h
      simp only [Bool.and_eq_true, beq_iff_eq] at h
      obtain ⟨hc, hfp1, hfp2⟩ := h
      subst hc
      refine Or.inr ⟨cs.takeWhile isDigitChar, fp, ?_, ?_, ?_, hfp2⟩
      · rw [← hd, List.takeWhile_append_dropWhile]
      · rw [List.all_eq_true]
        intro c hc
        exact List.mem_takeWhile_imp hc
      · intro hemp
        rw [hemp] at hfp1
        simp at hfp1

lemma takeWhile_self_all (l : List Char) {p : Char → Bool} :
    (l.takeWhile p).all p = true := by
  rw [List.all_eq_true]
  intro c hc
  exact List.mem_takeWhile_imp hc

lemma dropWhile_head_false {p : Char → Bool} {l : List Char}
    (h : ∀ c r2, l = c :: r2 → p c = false) :
    l.takeWhile p = [] ∧ l.dropWhile p = l := by
  rcases l with _ | ⟨c, r2⟩
  · exact ⟨rfl, rfl⟩
  · have hpc := h c r2 rfl
    simp [List.takeWhile_cons, List.dropWhile_cons, hpc]

lemma splitNum_append_eq (cs : List Char) :
    (splitNum cs).1 ++ (splitNum cs).2 = cs := by
  unfold splitNum
  split
  next c r2 heq =>
    by_cases hc : c = '.'
    · rw [if_pos hc]
      by_cases hemp : (r2.takeWhile isDigitChar).isEmpty
      · rw [if_pos hemp]
        rw [← heq]
        exact List.takeWhile_append_dropWhile _ _
      · rw [if_neg hemp]
        show cs.takeWhile isDigitChar ++ c :: r2.takeWhile isDigitChar
            ++ r2.dropWhile isDigitChar = cs
        rw [List.append_assoc, List.cons_append, List.takeWhile_append_dropWhile, ← heq]
        exact List.takeWhile_append_dropWhile _ _
    · rw [if_neg hc]
      rw [← heq]
      exact List.takeWhile_append_dropWhile _ _
  next heq =>
    show cs.takeWhile isDigitChar ++ [] = cs
    rw [List.append_nil]
    conv_rhs => rw [← List.takeWhile_append_dropWhile (p := isDigitChar) (l := cs)]
    rw [heq, List.append_nil]

lemma splitNum_shape (cs : List Char) :
    (splitNum cs).1 = [] ∨ numericTok (splitNum cs).1 = true := by
  have hbase : ∀ l : List Char,
      l.takeWhile isDigitChar = [] ∨ numericTok (l.takeWhile isDigitChar) = true := by
    intro l
    rcases ht : l.takeWhile isDigitChar with _ | ⟨t0, tr⟩
    · exact Or.inl rfl
    · refine Or.inr ?_
      unfold numericTok
      rw [Bool.or_eq_true, Bool.and_eq_true]
      refine Or.inl ⟨rfl, ?_⟩
      rw [← ht]
      exact takeWhile_self_all l
  unfold splitNum
  split
  next c r2 heq =>
    by_cases hc : c = '.'
    · rw [if_pos hc]
      by_cases hemp : (r2.takeWhile isDigitChar).isEmpty
      · rw [if_pos hemp]
        exact hbase cs
      · rw [if_neg hemp]
        refine Or.inr ?_
        unfold numericTok
        rw [Bool.or_eq_true]
        refine Or.inr ?_
        subst hc
        have htd := takeWhile_all_append (cs.takeWhile isDigitChar)
          ('.' :: r2.takeWhile isDigitChar) (takeWhile_self_all cs)
          (by intro d r3 hd3; cases hd3; decide)
        rw [htd.2]
        simp only [beq_self_eq_true, Bool.true_and, Bool.and_eq_true]
        refine ⟨by simpa using hemp, takeWhile_self_all r2⟩
    · rw [if_neg hc]
      exact hbase cs
  next heq => exact hbase cs

lemma splitNum_of_append {num rest : List Char}
    (hnum : num = [] ∨ numericTok num = true)
    (hr : ∀ c r2, rest = c :: r2 → isDigitChar c = false ∧ c ≠ '.') :
    splitNum (num ++ rest) = (num, rest) := by
  have hrd : ∀ c r2, rest = c :: r2 → isDigitChar c = false := fun c r2 hc => (hr c r2 hc).1
  have hshape :
      ((num ++ rest).takeWhile isDigitChar = num ∧
        (num ++ rest).dropWhile isDigitChar = rest) ∨
      ∃ d1 fp, num = d1 ++ '.' :: fp ∧ fp ≠ [] ∧ fp.all isDigitChar = true ∧
        (num ++ rest).takeWhile isDigitChar = d1 ∧
        (num ++ rest).dropWhile isDigitChar = '.' :: (fp ++ rest) := by
    rcases hnum with rfl | htok
    · rw [List.nil_append]
      exact Or.inl (dropWhile_head_false hrd)
    · rcases numericTok_shape htok with ⟨hne, hdig⟩ | ⟨d1, fp, rfl, hd1, hfpne, hfp⟩
      · exact Or.inl (takeWhile_all_append num rest hdig hrd)
      · refine Or.inr ⟨d1, fp, rfl, hfpne, hfp, ?_⟩
        rw [List.append_assoc, List.cons_append]
        exact takeWhile_all_append d1 ('.' :: (fp ++ rest)) hd1
          (by intro d r3 hd3; cases hd3; decide)
  unfold splitNum
  rcases hshape with ⟨htake, hdrop⟩ | ⟨d1, fp, hnumeq, hfpne, hfp, htake, hdrop⟩
  · rw [hdrop, htake]
    rcases hrest : rest with _ | ⟨c, r2⟩
    · rfl
    · have h := hr c r2 hrest
      show (if c = '.' then _ else (num, c :: r2)) = (num, c :: r2)
      rw [if_neg h.2]
  · rw [hdrop, htake]
    show (if ('.' : Char) = '.' then
        if ((fp ++ rest).takeWhile isDigitChar).isEmpty then (d1, '.' :: (fp ++ rest))
        else (d1 ++ '.' :: (fp ++ rest).takeWhile isDigitChar,
          (fp ++ rest).dropWhile isDigitChar)
      else (d1, '.' :: (fp ++ rest))) = (num, rest)
    rw [if_pos rfl]
    have hfpd := takeWhile_all_append fp rest hfp hrd
    rw [hfpd.1, hfpd.2]
    have hfpe : fp.isEmpty = false := by
      rcases fp with _ | ⟨f0, fr⟩
      · exact absurd rfl hfpne
      · rfl
    rw [if_neg (by rw [hfpe]; exact Bool.false_ne_true)]
    rw [hnumeq]

lemma unitSeconds_mem {u : List Char} {v : Nat} (h : unitSeconds u = some v) :
    ∃ e ∈ unitTable, e.fst = u := by
  unfold unitSeconds at h
  rcases hf : unitTable.find? (fun e => e.fst == u) with _ | e
  · rw [hf] at h
    cases h
  · have hmem := List.mem_of_find?_eq_some hf
    have hp := List.find?_some hf
    exact ⟨e, hmem, by simpa using hp⟩

lemma unit_token_facts {u : List Char} {v : Nat} (h : unitSeconds u = some v) :
    u ≠ [] ∧ u.all isWordChar = true ∧
      ∀ c r, u = c :: r → isDigitChar c = false ∧ c ≠ '.' ∧ c ≠ ' ' := by
  obtain ⟨e, he, rfl⟩ := unitSeconds_mem h
  fin_cases he <;>
    exact ⟨by decide, by decide, by
      intro c r hcr
      injection hcr with h1 h2
      subst h1
      decide⟩

/-- Claim C8 is false as stated: the spec's grammar allows leading and
trailing whitespace and any amount of whitespace between number and
unit, but the code's pattern is anchored with no whitespace classes and
at most one literal space, so `parseInterval` rejects " 1 d", "1  d"
and "1 d ", all of which the spec grammar matches. -/
theorem parseInterval_rejects_spec_whitespace :
    specIntervalGrammar " 1 d" = true ∧ parseInterval " 1 d" = none ∧
    specIntervalGrammar "1  d" = true ∧ parseInterval "1  d" = none ∧
    specIntervalGrammar "1 d " = true ∧ parseInterval "1 d " = none := by decide

lemma dropOneSpace_of_unit {sp unit : List Char} {u : Nat}
    (hsp : sp = [] ∨ sp = [' ']) (hu : unitSeconds unit = some u) :
    dropOneSpace (sp ++ unit) = unit := by
  obtain ⟨hne, hword, hhead⟩ := unit_token_facts hu
  rcases hcu : unit with _ | ⟨c0, ur⟩
  · exact absurd hcu hne
  subst hcu
  obtain ⟨hc0d, hc0dot, hc0sp⟩ := hhead c0 ur rfl
  rcases hsp with rfl | rfl
  · rw [List.nil_append]
    show (if c0 = ' ' then ur else c0 :: ur) = c0 :: ur
    rw [if_neg hc0sp]
  · show (if (' ' : Char) = ' ' then c0 :: ur else ' ' :: (c0 :: ur)) = c0 :: ur
    rw [if_pos rfl]

lemma parseIntervalRest_of_unit {num sp unit : List Char} {u : Nat}
    (hsp : sp = [] ∨ sp = [' ']) (hu : unitSeconds unit = some u) :
    parseIntervalRest num (sp ++ unit) =
      intervalValue (numValue num).1 (numValue num).2 u := by
  obtain ⟨hne, hword, hhead⟩ := unit_token_facts hu
  have hds := dropOneSpace_of_unit hsp hu
  unfold parseIntervalRest
  rw [hds]
  have hemp : unit.isEmpty = false := by
    rcases unit with _ | ⟨c0, ur⟩
    · exact absurd rfl hne
    · rfl
  rw [if_neg (by rw [hemp]; exact Bool.false_ne_true), if_pos hword, hu]

/-- Claim C8 (amended): `parseInterval` behaves exactly as the code's
actual pattern and float64 arithmetic dictate.  On every input of the
shape optional number (`\d+` or `\d*.\d+`), at most one space, and a
recognized unit token - no surrounding whitespace - the result is
`intervalValue`: the binary64 value of the number (failing exactly when
`ParseFloat` overflows to +Inf with `ErrRange`), times the float64 unit
in one rounding, truncated toward zero by `Interval(f)`.  Conversely
every successful parse arises this way, so `parseInterval` succeeds
exactly on the code-grammar strings whose known-unit number is within
float64 range. -/
theorem parseInterval_code_grammar :
    (∀ (num sp unit : List Char) (u : Nat),
       (num = [] ∨ numericTok num = true) → (sp = [] ∨ sp = [' ']) →
       unitSeconds unit = some u →
       parseInterval (String.mk (num ++ (sp ++ unit))) =
         intervalValue (numValue num).1 (numValue num).2 u) ∧
    (∀ (s : String) (v : Interval), parseInterval s = some v →
       ∃ num sp unit u, s.toList = num ++ (sp ++ unit) ∧
         (num = [] ∨ numericTok num = true) ∧ (sp = [] ∨ sp = [' ']) ∧
         unitSeconds unit = some u ∧
         intervalValue (numValue num).1 (numValue num).2 u = some v) := by
  constructor
  · intro num sp unit u hnum hsp hu
    obtain ⟨hne, hword, hhead⟩ := unit_token_facts hu
    have hsplit : splitNum (num ++ (sp ++ unit)) = (num, sp ++ unit) := by
      apply splitNum_of_append hnum
      intro c r2 hc
      rcases hsp with rfl | rfl
      · rw [List.nil_append] at hc
        obtain ⟨c0, ur, hcu⟩ : ∃ c0 ur, unit = c0 :: ur := by
          rcases unit with _ | ⟨c0, ur⟩
          · exact absurd rfl hne
          · exact ⟨_, _, rfl⟩
        rw [hcu] at hc
        injection hc with h1 h2
        subst h1
        have := hhead _ _ hcu
        exact ⟨this.1, this.2.1⟩
      · injection hc with h1 h2
        subst h1
        exact ⟨by decide, by decide⟩
    have htl : (String.mk (num ++ (sp ++ unit))).toList = num ++ (sp ++ unit) := rfl
    unfold parseInterval
    rw [htl, hsplit]
    exact parseIntervalRest_of_unit hsp hu
  · intro s v h
    unfold parseInterval at h
    rcases hsp : splitNum s.toList with ⟨num, rest⟩
    rw [hsp] at h
    have hcs : num ++ rest = s.toList := by
      rw [← splitNum_append_eq s.toList, hsp]
    have hshape : num = [] ∨ numericTok num = true := by
      have := splitNum_shape s.toList
      rw [hsp] at this
      exact this
    unfold parseIntervalRest at h
    split at h
    · cases h
    · split at h
      · rcases hu : unitSeconds (dropOneSpace rest) with _ | u
        · rw [hu] at h
          cases h
        · rw [hu] at h
          rcases hrest : rest with _ | ⟨c, r⟩
          · rw [hrest] at hu
            cases hu
          · by_cases hc : c = ' '
            · refine ⟨num, [' '], r, u, ?_, hshape, Or.inr rfl, ?_, h⟩
              · rw [← hcs, hrest, hc]
                rfl
              · rw [hrest] at hu
                have hu2 : unitSeconds (if c = ' ' then r else c :: r) = some u := hu
                rw [if_pos hc] at hu2
                exact hu2
            · refine ⟨num, [], c :: r, u, ?_, hshape, Or.inl rfl, ?_, h⟩
              · rw [← hcs, hrest]
                rfl
              · rw [hrest] at hu
                have hu2 : unitSeconds (if c = ' ' then r else c :: r) = some u := hu
                rw [if_neg hc] at hu2
                exact hu2
      · cases h

set_option maxRecDepth 100000 in
theorem parseInterval_code_grammar_witness :
    ((['2'] : List Char) = [] ∨ numericTok ['2'] = true) ∧
    (([' '] : List Char) = [] ∨ ([' '] : List Char) = [' ']) ∧
    unitSeconds ['d', 'a', 'y'] = some 86400 ∧
    parseInterval (String.mk (['2'] ++ ([' '] ++ ['d', 'a', 'y'])))
      = intervalValue (numValue ['2']).1 (numValue ['2']).2 86400 ∧
    parseInterval (String.mk (['0', '.', '7'] ++ ([] ++ ['d'])))
      = intervalValue (numValue ['0', '.', '7']).1 (numValue ['0', '.', '7']).2 86400 ∧
    intervalValue (numValue ['0', '.', '7']).1 (numValue ['0', '.', '7']).2 86400
      = some 60479 ∧
    (∃ num sp unit u, ("2 day" : String).toList = num ++ (sp ++ unit) ∧
      (num = [] ∨ numericTok num = true) ∧ (sp = [] ∨ sp = [' ']) ∧
      unitSeconds unit = some u ∧
      intervalValue (numValue num).1 (numValue num).2 u = some 172800) :=
  ⟨Or.inr (by decide), Or.inr rfl, by decide,
    parseInterval_code_grammar.1 ['2'] [' '] ['d', 'a', 'y'] 86400 (Or.inr (by decide))
      (Or.inr rfl) (by decide),
    parseInterval_code_grammar.1 ['0', '.', '7'] [] ['d'] 86400 (Or.inr (by decide))
      (Or.inl rfl) (by decide),
    by decide,
    parseInterval_code_grammar.2 "2 day" 172800 (by decide)⟩
